import Mathlib

/-!
Formal model of the federated EHR core of this repository: the secure data
processor (pseudonymization, generalization, image encryption), the weighted
aggregation engine and the round coordinator.  The definitions are translated
from src/ai_ml/src/federated_ehr_ai.py and
src/ai_ml/src/medical_imaging_security.py; Python dicts become association
lists, numpy float tensors become lists of rationals, and raised exceptions
become Except results.
-/

/-- Python exception kinds that the modelled code can raise. -/
inductive PyErr where
  | indexError
  | typeError
  | zeroDivisionError
  | valueError (msg : String)
deriving DecidableEq, Repr

deriving instance DecidableEq for Except

/-- A Python dict value as used by the EHR records: a string or an integer. -/
inductive Val where
  | vStr (s : String)
  | vInt (n : Int)
deriving DecidableEq, Repr

/-- An EHR record: an insertion-ordered Python dict from field names to values. -/
abbrev Rec := List (String × Val)

/-- Python d.get(k) / d[k]: value of the first binding of key k. -/
def dlookup (k : String) : Rec → Option Val
  | [] => none
  | (k2, v) :: r => if k2 = k then some v else dlookup k r

/-- Python d[k] = v: replace the value in place when the key exists, else append. -/
def dset (k : String) (v : Val) (r : Rec) : Rec :=
  if (dlookup k r).isSome then
    r.map (fun p => if p.1 = k then (k, v) else p)
  else r ++ [(k, v)]

/-- Python d.pop(k, None) / del d[k]: drop every binding of key k. -/
def derase (k : String) (r : Rec) : Rec :=
  r.filter (fun p => p.1 != k)

/-- The anonymization_map of a SecureEHRProcessor: a Python dict from
source-identity value to the cached pseudonym. -/
abbrev AMap := List (Val × String)

/-- First binding of a source identity in the anonymization map. -/
def lookupV (k : Val) : AMap → Option String
  | [] => none
  | (k2, v) :: r => if k2 = k then some v else lookupV k r

/-- SecureEHRProcessor._get_age_group, the five fixed age bands. -/
def get_age_group (age : Int) : String :=
  if age < 18 then "0-17"
  else if age < 30 then "18-29"
  else if age < 50 then "30-49"
  else if age < 70 then "50-69"
  else "70+"

/-- The fixed direct-identifier field list popped by anonymize_patient_data. -/
def sensitive_fields : List String :=
  ["patient_id", "name", "ssn", "phone", "email", "address"]

/-- The age branch of anonymize_patient_data: when the record carries an age,
replace it by its age band under the key age_group; a non-integer age raises
a Python TypeError at the comparison age < 18. -/
def age_step (r : Rec) : Except PyErr Rec :=
  match dlookup "age" r with
  | some (Val.vInt age) =>
      .ok (derase "age" (dset "age_group" (Val.vStr (get_age_group age)) r))
  | some (Val.vStr _) => .error .typeError
  | none => .ok r

/-- The zip-code branch of anonymize_patient_data: when the record carries a
zip code, replace it by its truncated region code; slicing an integer zip
code raises a Python TypeError. -/
def zip_step (r : Rec) : Except PyErr Rec :=
  match dlookup "zip_code" r with
  | some (Val.vStr z) =>
      .ok (derase "zip_code" (dset "region" (Val.vStr (z.take 3 ++ "XX")) r))
  | some (Val.vInt _) => .error .typeError
  | none => .ok r

/-- The source identity a record presents to anonymize_patient_data:
ehr_data.get(patient_id-key, empty string). -/
def sourceId (ehr : Rec) : Val :=
  (dlookup "patient_id" ehr).getD (Val.vStr "")

/-- The anonymization map after one call: the pseudonym is cached when the
source identity was not seen before, and left alone otherwise.  The pseudonym
the source would compute at a first encounter hashes the identity together
with the wall-clock time, so it is not a pure function of the inputs; the
value this call would cache is passed in as fresh. -/
def updatedAMap (amap : AMap) (fresh : String) (ehr : Rec) : AMap :=
  if (lookupV (sourceId ehr) amap).isSome then amap
  else amap ++ [(sourceId ehr, fresh)]

/-- The record after the pseudonym assignment and the removal of the direct
identifiers: the copy of the input record with anonymous_id set to the cached
pseudonym and every direct-identifier field popped. -/
def strippedRec (amap : AMap) (fresh : String) (ehr : Rec) : Rec :=
  sensitive_fields.foldl (fun r f => derase f r)
    (dset "anonymous_id"
      (Val.vStr ((lookupV (sourceId ehr) (updatedAMap amap fresh ehr)).getD ""))
      ehr)

/-- One call of SecureEHRProcessor.anonymize_patient_data, following the
source line by line: copy the record, cache and read back the pseudonym,
pop the direct identifiers, then generalize age and zip_code.  Returns the
updated anonymization map and the result of the call. -/
def anonymize_patient_data (amap : AMap) (fresh : String) (ehr : Rec) :
    AMap × Except PyErr Rec :=
  (updatedAMap amap fresh ehr,
   age_step (strippedRec amap fresh ehr) >>= zip_step)

/-- A sequence of further anonymize calls on the same processor instance:
each entry carries the fresh pseudonym that call would cache and the record
it anonymizes.  Only the accumulated anonymization map is kept. -/
def anonymizeSeq (amap : AMap) (calls : List (String × Rec)) : AMap :=
  calls.foldl (fun m c => (anonymize_patient_data m c.1 c.2).1) amap

/-- The final state of the dict that ehr_data.copy() allocates, including the
partially mutated states the copy is left in when the age or zip branch
raises: the age comparison raises before age_group is written, and slicing
the zip code raises before region is written. -/
def anonymize_copy_final (amap : AMap) (fresh : String) (ehr : Rec) : Rec :=
  match age_step (strippedRec amap fresh ehr) with
  | .error _ => strippedRec amap fresh ehr
  | .ok mid =>
    match zip_step mid with
    | .error _ => mid
    | .ok o => o

/-- The object store of a running processor: the Python dicts the caller can
reach, addressed by allocation index, together with the processor's
anonymization map. -/
structure PyState where
  store : List Rec
  amap : AMap
deriving DecidableEq, Repr

/-- anonymize_patient_data at the object level.  The record argument is
passed by reference; the call reads the dict at that address, allocates the
fresh copy that ehr_data.copy() creates, performs every write on that copy,
and returns the address of the copy (no address when the call raises). -/
def anonymize_obj (σ : PyState) (fresh : String) (ehrAddr : ℕ) :
    PyState × Except PyErr ℕ :=
  let ehr := σ.store.getD ehrAddr []
  let call := anonymize_patient_data σ.amap fresh ehr
  (⟨σ.store ++ [anonymize_copy_final σ.amap fresh ehr], call.1⟩,
   call.2.map (fun _ => σ.store.length))

/-! The federated learning core of FederatedEHRModel: numpy float tensors are
modelled as lists of rationals (a 1-D shape is a length), the weights of one
client as the ordered list of its layer tensors. -/

/-- The performance dict inside a client update; either metric may be absent
because the source reads it with perf.get(key, 0). -/
structure PerfM where
  accuracy : Option ℚ
  loss : Option ℚ
deriving DecidableEq, Repr, Inhabited

/-- One entry of the client_updates dict: the update's model_weights and
data_size keys are always read, the performance dict only when present. -/
structure Update where
  model_weights : List (List ℚ)
  data_size : ℕ
  performance : Option PerfM
deriving DecidableEq, Repr, Inhabited

/-- A Python float that may be the infinity produced by float(inf). -/
inductive XVal where
  | fin (q : ℚ)
  | inf
deriving DecidableEq, Repr, Inhabited

/-- The performance dict built by _evaluate_global_model (its wall-clock
timestamp field is dropped from the model). -/
structure EvalResult where
  accuracy : ℚ
  loss : XVal
  participating_clients : ℕ
  total_samples : ℕ
deriving DecidableEq, Repr, Inhabited

/-- The mutable state of a FederatedEHRModel: the registered client ids, the
current round counter, the performance history and the parameters the global
model currently holds (set_weights / get_weights). -/
structure ModelState where
  clients : List String
  current_round : ℕ
  performance_history : List EvalResult
  global_weights : List (List ℚ)
deriving DecidableEq, Repr, Inhabited

/-- The result dict of federated_training_round. -/
inductive RoundResult where
  | failed (reason : String)
  | success (round : ℕ) (performance : EvalResult)
      (global_model_weights : List (List ℚ))
deriving DecidableEq, Repr, Inhabited

/-- numpy scalar times 1-D array. -/
def scalarMul (w : ℚ) (x : List ℚ) : List ℚ := x.map (fun v => w * v)

/-- numpy in-place add layer_avg += x: elementwise when the shapes agree, a
length-1 array broadcasts over the whole accumulator, and any other shape
combination raises a broadcast error. -/
def broadcastAdd (acc x : List ℚ) : Option (List ℚ) :=
  if x.length = acc.length then some (List.zipWith (fun a b => a + b) acc x)
  else
    match x with
    | [v] => some (acc.map (fun a => a + v))
    | _ => none

/-- The inner loop of _federated_averaging over enumerate(client_weights):
look up this client's size, divide it by the total (a ZeroDivisionError when
the total is zero), index this client's tensor for the current layer (an
IndexError when this client has fewer tensors than the first) and add the
weighted tensor into the accumulator. -/
def avgClientsLoop (total : ℚ) (cs : List ℕ) (layerIdx : ℕ) :
    List (List (List ℚ)) → ℕ → List ℚ → Except PyErr (List ℚ)
  | [], _, acc => .ok acc
  | w :: ws, idx, acc =>
    match cs[idx]? with
    | none => .error .indexError
    | some size =>
      if total = 0 then .error .zeroDivisionError
      else
        match w[layerIdx]? with
        | none => .error .indexError
        | some x =>
          match broadcastAdd acc (scalarMul ((size : ℚ) / total) x) with
          | none => .error (.valueError "operands could not be broadcast")
          | some acc2 => avgClientsLoop total cs layerIdx ws (idx + 1) acc2

/-- The outer loop of _federated_averaging over range(len(client_weights[0])),
starting each layer from np.zeros_like(client_weights[0][layer_idx]). -/
def layersLoop (total : ℚ) (cs : List ℕ) (cw : List (List (List ℚ)))
    (w0 : List (List ℚ)) : List ℕ → Except PyErr (List (List ℚ))
  | [] => .ok []
  | layerIdx :: rest =>
    match avgClientsLoop total cs layerIdx cw 0
        (List.replicate (w0.getD layerIdx []).length 0) with
    | .error e => .error e
    | .ok r =>
      match layersLoop total cs cw w0 rest with
      | .error e => .error e
      | .ok rs => .ok (r :: rs)

/-- FederatedEHRModel._federated_averaging: indexing client_weights[0] on an
empty input raises, otherwise every layer of the first client is averaged
over all clients weighted by data size. -/
def federated_averaging (cw : List (List (List ℚ))) (cs : List ℕ) :
    Except PyErr (List (List ℚ)) :=
  match cw with
  | [] => .error .indexError
  | w0 :: _ => layersLoop ((cs.sum : ℚ)) cs cw w0 (List.range w0.length)

/-- FederatedEHRModel._evaluate_global_model: sums accuracy and loss weighted
by data size over every entry of client_updates that carries a performance
dict (registered or not), then divides by the summed samples, falling back
to accuracy 0 and loss infinity when no samples contributed. -/
def evaluate_global_model (updates : List (String × Update)) : EvalResult :=
  let perfs := updates.filterMap
    (fun cu => cu.2.performance.map (fun p => (p, cu.2.data_size)))
  let total_accuracy := (perfs.map (fun ps => (ps.1.accuracy.getD 0) * (ps.2 : ℚ))).sum
  let total_loss := (perfs.map (fun ps => (ps.1.loss.getD 0) * (ps.2 : ℚ))).sum
  let total_samples : ℕ := (perfs.map (fun ps => ps.2)).sum
  if 0 < total_samples then
    { accuracy := total_accuracy / (total_samples : ℚ),
      loss := .fin (total_loss / (total_samples : ℚ)),
      participating_clients := updates.length,
      total_samples := total_samples }
  else
    { accuracy := 0, loss := .inf,
      participating_clients := updates.length, total_samples := total_samples }

/-- The updates federated_training_round actually collects: the entries of
client_updates whose client id is registered. -/
def collectedUpdates (st : ModelState) (updates : List (String × Update)) :
    List (String × Update) :=
  updates.filter (fun cu => st.clients.contains cu.1)

/-- FederatedEHRModel.federated_training_round.  The function has no
exception handler, so an error escaping _federated_averaging is an error of
the whole call; on the success path the global weights are replaced, the
evaluation snapshot is appended to the history and the round counter is
incremented. -/
def federated_training_round (st : ModelState) (updates : List (String × Update)) :
    Except PyErr (ModelState × RoundResult) :=
  if ((collectedUpdates st updates).map (fun cu => cu.2.model_weights)).isEmpty then
    .ok (st, .failed "no_updates")
  else
    match federated_averaging
        ((collectedUpdates st updates).map (fun cu => cu.2.model_weights))
        ((collectedUpdates st updates).map (fun cu => cu.2.data_size)) with
    | .error e => .error e
    | .ok global_weights =>
      .ok ({ st with
              global_weights := global_weights,
              performance_history :=
                st.performance_history ++ [evaluate_global_model updates],
              current_round := st.current_round + 1 },
           .success (st.current_round + 1) (evaluate_global_model updates)
             global_weights)

/-- Modelled from the spec (section 4.4): the sample-weighted average of the
contributing clients' local accuracies, with the same weights as the
parameter aggregation.  This is the quantity the spec says the performance
snapshot records; it is compared against what the code computes. -/
def contribWeightedAcc (st : ModelState) (updates : List (String × Update)) : ℚ :=
  let collected := collectedUpdates st updates
  ((collected.map (fun cu =>
      ((cu.2.performance.getD default).accuracy.getD 0) * (cu.2.data_size : ℚ))).sum) /
    (((collected.map (fun cu => cu.2.data_size)).sum : ℕ) : ℚ)

/-! The DICOM image encryption of MedicalImageEncryption, from
src/ai_ml/src/medical_imaging_security.py.  Bytes are lists of naturals.
The AES-256-CBC block cipher, the HMAC-SHA256 digest and the PBKDF2 key
derivation are external library primitives, so they enter the model as
function parameters; the base64 transport encoding of the package fields and
the hex encoding of the digest, both bijective, are elided. -/

/-- MedicalImageEncryption._pad_data: PKCS7 padding to the 16-byte AES
block; the padding length 16 - len mod 16 is always between 1 and 16. -/
def pad_data (data : List ℕ) : List ℕ :=
  data ++ List.replicate (16 - data.length % 16) (16 - data.length % 16)

/-- MedicalImageEncryption._unpad_data: read the final byte and drop that
many bytes from the end.  Python slicing data-minus-zero yields the empty
list, and reading the final byte of an empty input is an IndexError. -/
def unpad_data (padded : List ℕ) : Except PyErr (List ℕ) :=
  match padded.getLast? with
  | none => .error .indexError
  | some n => .ok (if n = 0 then [] else padded.take (padded.length - n))

/-- The dict returned by encrypt_dicom_image (the wall-clock timestamp field
is dropped from the model). -/
structure EncPackage where
  encrypted_data : List ℕ
  iv : List ℕ
  integrity_hash : List ℕ
  encryption_algorithm : String
  image_id : String
deriving DecidableEq, Repr

/-- MedicalImageEncryption.encrypt_dicom_image: derive the per-image key
(generate_image_key on the fixed master key, modelled by kdf), pad, encrypt
under the block cipher in CBC mode with the fresh random iv that
np.random.bytes supplies (passed in, as it is not a pure function of the
inputs), and authenticate the ciphertext with hmac. -/
def encrypt_dicom_image (kdf : String → List ℕ)
    (aesEnc : List ℕ → List ℕ → List ℕ → List ℕ)
    (hmac : List ℕ → List ℕ → List ℕ)
    (dicom_data : List ℕ) (image_id : String) (iv : List ℕ) : EncPackage :=
  { encrypted_data := aesEnc (kdf image_id) iv (pad_data dicom_data),
    iv := iv,
    integrity_hash := hmac (kdf image_id) (aesEnc (kdf image_id) iv (pad_data dicom_data)),
    encryption_algorithm := "AES-256-CBC",
    image_id := image_id }

/-- MedicalImageEncryption.decrypt_dicom_image: re-derive the key, recompute
the digest over the stored ciphertext, compare it against the stored tag
(hmac.compare_digest), raise the integrity ValueError on mismatch, and only
past that check decrypt and unpad. -/
def decrypt_dicom_image (kdf : String → List ℕ)
    (aesDec : List ℕ → List ℕ → List ℕ → List ℕ)
    (hmac : List ℕ → List ℕ → List ℕ)
    (pkg : EncPackage) (image_id : String) : Except PyErr (List ℕ) :=
  if pkg.integrity_hash = hmac (kdf image_id) pkg.encrypted_data then
    unpad_data (aesDec (kdf image_id) pkg.iv pkg.encrypted_data)
  else
    .error (.valueError "Image integrity verification failed")

/-! Dictionary lemmas used to reason about anonymize_patient_data. -/

theorem dlookup_append (k : String) (r1 r2 : Rec) :
    dlookup k (r1 ++ r2) = (dlookup k r1).or (dlookup k r2) := by
  induction r1 with
  | nil => simp [dlookup]
  | cons p r ih =>
    obtain ⟨a, b⟩ := p
    by_cases h : a = k
    · simp [dlookup, h]
    · simp [dlookup, h, ih]

theorem dlookup_cons (k a : String) (b : Val) (r : Rec) :
    dlookup k ((a, b) :: r) = if a = k then some b else dlookup k r := rfl

theorem dlookup_mapset_self (k : String) (v : Val) (r : Rec) :
    dlookup k (r.map (fun p => if p.1 = k then (k, v) else p)) =
      (dlookup k r).map (fun _ => v) := by
  induction r with
  | nil => rfl
  | cons p r ih =>
    obtain ⟨a, b⟩ := p
    by_cases h : a = k
    · subst h
      simp [dlookup_cons, ih]
    · simp only [List.map_cons]
      rw [show (if (a, b).1 = k then (k, v) else (a, b)) = (a, b) from if_neg h]
      rw [dlookup_cons, dlookup_cons, if_neg h, if_neg h, ih]

theorem dlookup_mapset_ne (k k2 : String) (h : k2 ≠ k) (v : Val) (r : Rec) :
    dlookup k2 (r.map (fun p => if p.1 = k then (k, v) else p)) = dlookup k2 r := by
  induction r with
  | nil => rfl
  | cons p r ih =>
    obtain ⟨a, b⟩ := p
    simp only [List.map_cons]
    by_cases hk : a = k
    · subst hk
      rw [show (if (a, b).1 = a then (a, v) else (a, b)) = (a, v) from if_pos rfl]
      rw [dlookup_cons, dlookup_cons, if_neg (Ne.symm h), if_neg (Ne.symm h), ih]
    · rw [show (if (a, b).1 = k then (k, v) else (a, b)) = (a, b) from if_neg hk]
      rw [dlookup_cons, dlookup_cons, ih]

theorem dlookup_dset_self (k : String) (v : Val) (r : Rec) :
    dlookup k (dset k v r) = some v := by
  unfold dset
  split
  case isTrue h =>
    rw [dlookup_mapset_self]
    cases hdl : dlookup k r with
    | none => rw [hdl] at h; simp at h
    | some w => simp
  case isFalse h =>
    rw [dlookup_append]
    cases hdl : dlookup k r with
    | none => simp [hdl, dlookup]
    | some w => rw [hdl] at h; simp at h

theorem dlookup_dset_ne (k k2 : String) (h : k2 ≠ k) (v : Val) (r : Rec) :
    dlookup k2 (dset k v r) = dlookup k2 r := by
  unfold dset
  split
  · rw [dlookup_mapset_ne k k2 h]
  · rw [dlookup_append]
    simp [dlookup_cons, dlookup, Ne.symm h]

theorem dlookup_derase_self (k : String) (r : Rec) :
    dlookup k (derase k r) = none := by
  induction r with
  | nil => rfl
  | cons p r ih =>
    obtain ⟨a, b⟩ := p
    by_cases hk : a = k
    · simpa [derase, List.filter_cons, hk] using ih
    · simpa [derase, List.filter_cons, hk, dlookup] using ih

theorem dlookup_derase_ne (k k2 : String) (h : k2 ≠ k) (r : Rec) :
    dlookup k2 (derase k r) = dlookup k2 r := by
  induction r with
  | nil => rfl
  | cons p r ih =>
    obtain ⟨a, b⟩ := p
    by_cases hk : a = k
    · subst hk
      simpa [derase, List.filter_cons, dlookup, Ne.symm h] using ih
    · simp only [derase, List.filter_cons] at ih ⊢
      simp [hk, dlookup, ih]

theorem lookupV_append (k : Val) (m1 m2 : AMap) :
    lookupV k (m1 ++ m2) = (lookupV k m1).or (lookupV k m2) := by
  induction m1 with
  | nil => simp [lookupV]
  | cons p m ih =>
    obtain ⟨a, b⟩ := p
    by_cases h : a = k
    · simp [lookupV, h]
    · simp [lookupV, h, ih]

/-! Structural lemmas about anonymize_patient_data. -/

theorem strippedRec_eq (amap : AMap) (fresh : String) (ehr : Rec) :
    strippedRec amap fresh ehr =
      derase "address" (derase "email" (derase "phone" (derase "ssn"
        (derase "name" (derase "patient_id"
          (dset "anonymous_id"
            (Val.vStr ((lookupV (sourceId ehr) (updatedAMap amap fresh ehr)).getD ""))
            ehr)))))) := rfl

theorem dlookup_strippedRec_sensitive (k : String) (hk : k ∈ sensitive_fields)
    (amap : AMap) (fresh : String) (ehr : Rec) :
    dlookup k (strippedRec amap fresh ehr) = none := by
  rw [strippedRec_eq]
  fin_cases hk <;>
    simp [dlookup_derase_self, dlookup_derase_ne]

theorem dlookup_strippedRec_anon_id (amap : AMap) (fresh : String) (ehr : Rec) :
    dlookup "anonymous_id" (strippedRec amap fresh ehr) =
      some (Val.vStr ((lookupV (sourceId ehr) (updatedAMap amap fresh ehr)).getD "")) := by
  rw [strippedRec_eq]
  rw [dlookup_derase_ne _ _ (by decide), dlookup_derase_ne _ _ (by decide),
      dlookup_derase_ne _ _ (by decide), dlookup_derase_ne _ _ (by decide),
      dlookup_derase_ne _ _ (by decide), dlookup_derase_ne _ _ (by decide),
      dlookup_dset_self]

theorem dlookup_strippedRec_other (k : String) (hk : k ∉ sensitive_fields)
    (hid : k ≠ "anonymous_id") (amap : AMap) (fresh : String) (ehr : Rec) :
    dlookup k (strippedRec amap fresh ehr) = dlookup k ehr := by
  rw [strippedRec_eq]
  simp only [sensitive_fields, List.mem_cons, List.not_mem_nil, or_false] at hk
  push_neg at hk
  obtain ⟨h1, h2, h3, h4, h5, h6⟩ := hk
  rw [dlookup_derase_ne _ _ h6, dlookup_derase_ne _ _ h5, dlookup_derase_ne _ _ h4,
      dlookup_derase_ne _ _ h3, dlookup_derase_ne _ _ h2, dlookup_derase_ne _ _ h1,
      dlookup_dset_ne _ _ hid]

theorem age_step_preserves (k : String) (h1 : k ≠ "age") (h2 : k ≠ "age_group")
    (r out : Rec) (h : age_step r = .ok out) :
    dlookup k out = dlookup k r := by
  unfold age_step at h
  cases hage : dlookup "age" r with
  | none => rw [hage] at h; cases h; rfl
  | some v =>
    cases v with
    | vStr s => rw [hage] at h; cases h
    | vInt n =>
      rw [hage] at h
      cases h
      rw [dlookup_derase_ne _ _ h1, dlookup_dset_ne _ _ h2]

theorem zip_step_preserves (k : String) (h1 : k ≠ "zip_code") (h2 : k ≠ "region")
    (r out : Rec) (h : zip_step r = .ok out) :
    dlookup k out = dlookup k r := by
  unfold zip_step at h
  cases hz : dlookup "zip_code" r with
  | none => rw [hz] at h; cases h; rfl
  | some v =>
    cases v with
    | vInt n => rw [hz] at h; cases h
    | vStr z =>
      rw [hz] at h
      cases h
      rw [dlookup_derase_ne _ _ h1, dlookup_dset_ne _ _ h2]

theorem age_step_id (r : Rec) (h : dlookup "age" r = none) : age_step r = .ok r := by
  unfold age_step
  rw [h]

theorem zip_step_id (r : Rec) (h : dlookup "zip_code" r = none) : zip_step r = .ok r := by
  unfold zip_step
  rw [h]

theorem anonymize_amap_eq (amap : AMap) (fresh : String) (ehr : Rec) :
    (anonymize_patient_data amap fresh ehr).1 = updatedAMap amap fresh ehr := rfl

theorem lookupV_updatedAMap_mono (q : Val) (h16 : String) (amap : AMap)
    (fresh : String) (ehr : Rec) (h : lookupV q amap = some h16) :
    lookupV q (updatedAMap amap fresh ehr) = some h16 := by
  unfold updatedAMap
  split
  · exact h
  · rw [lookupV_append, h]
    rfl

theorem lookupV_updatedAMap_self (amap : AMap) (fresh : String) (ehr : Rec) :
    lookupV (sourceId ehr) (updatedAMap amap fresh ehr) =
      some ((lookupV (sourceId ehr) amap).getD fresh) := by
  unfold updatedAMap
  cases h : lookupV (sourceId ehr) amap with
  | some w => simp [h]
  | none => simp [h, lookupV_append, lookupV]

theorem anonymize_out_anon_id (amap : AMap) (fresh : String) (ehr : Rec) (out : Rec)
    (h : (anonymize_patient_data amap fresh ehr).2 = .ok out) :
    dlookup "anonymous_id" out =
      some (Val.vStr
        ((lookupV (sourceId ehr) (updatedAMap amap fresh ehr)).getD "")) := by
  unfold anonymize_patient_data at h
  cases hage : age_step (strippedRec amap fresh ehr) with
  | error e =>
    rw [hage] at h
    replace h : (Except.error e : Except PyErr Rec) = .ok out := h
    cases h
  | ok mid =>
    rw [hage] at h
    replace h : zip_step mid = .ok out := h
    rw [zip_step_preserves _ (by decide) (by decide) _ _ h,
        age_step_preserves _ (by decide) (by decide) _ _ hage,
        dlookup_strippedRec_anon_id]

/-- Splits a successful anonymize call into its age and zip stages. -/
theorem anonymize_ok_split (amap : AMap) (fresh : String) (ehr out : Rec)
    (h : (anonymize_patient_data amap fresh ehr).2 = .ok out) :
    ∃ mid, age_step (strippedRec amap fresh ehr) = .ok mid ∧ zip_step mid = .ok out := by
  unfold anonymize_patient_data at h
  cases hage : age_step (strippedRec amap fresh ehr) with
  | error e =>
    rw [hage] at h
    exact absurd (show (Except.error e : Except PyErr Rec) = .ok out from h) (by simp)
  | ok mid =>
    rw [hage] at h
    exact ⟨mid, rfl, h⟩

theorem lookupV_anonymizeSeq_mono (q : Val) (h16 : String) (calls : List (String × Rec)) :
    ∀ amap : AMap, lookupV q amap = some h16 →
      lookupV q (anonymizeSeq amap calls) = some h16 := by
  induction calls with
  | nil => intro amap h; exact h
  | cons c calls ih =>
    intro amap h
    exact ih _ (lookupV_updatedAMap_mono q h16 amap c.1 c.2 h)

/-! List access helpers for the aggregation proofs. -/

theorem getD_zipWith_add (a b : List ℚ) (h : b.length = a.length) :
    ∀ i, (List.zipWith (fun x y => x + y) a b).getD i 0 = a.getD i 0 + b.getD i 0 := by
  induction a generalizing b with
  | nil =>
    cases b with
    | nil => intro i; simp
    | cons y ys => simp at h
  | cons x xs ih =>
    cases b with
    | nil => simp at h
    | cons y ys =>
      intro i
      cases i with
      | zero => simp
      | succ n => simpa using ih ys (by simpa using h) n

theorem getD_scalarMul (w : ℚ) (x : List ℚ) :
    ∀ i, (scalarMul w x).getD i 0 = w * x.getD i 0 := by
  induction x with
  | nil => intro i; simp [scalarMul]
  | cons a l ih =>
    intro i
    cases i with
    | zero => simp [scalarMul]
    | succ n => simpa [scalarMul] using ih n

theorem getD_replicate_zero (n : ℕ) : ∀ i, (List.replicate n (0 : ℚ)).getD i 0 = 0 := by
  induction n with
  | zero => intro i; simp
  | succ m ih =>
    intro i
    cases i with
    | zero => simp [List.replicate_succ]
    | succ j => simpa [List.replicate_succ] using ih j

theorem getD_beyond (l : List ℚ) (i : ℕ) (h : l.length ≤ i) : l.getD i 0 = 0 := by
  rw [List.getD_eq_getElem?_getD, List.getElem?_eq_none h]
  rfl

/-- The inner loop of _federated_averaging computes, position by position,
the start value plus the size-weighted sum of the remaining clients' layer
tensors, provided every remaining client has this layer with the
accumulator's shape and a size entry. -/
theorem avgClientsLoop_spec (total : ℚ) (htotal : total ≠ 0) (cs : List ℕ)
    (layerIdx : ℕ) :
    ∀ (ws : List (List (List ℚ))) (idx : ℕ) (acc : List ℚ),
      (∀ w ∈ ws, layerIdx < w.length ∧ (w.getD layerIdx []).length = acc.length) →
      idx + ws.length ≤ cs.length →
      ∃ r, avgClientsLoop total cs layerIdx ws idx acc = .ok r ∧
        r.length = acc.length ∧
        ∀ i, r.getD i 0 = acc.getD i 0 +
          ∑ j ∈ Finset.range ws.length,
            ((cs.getD (idx + j) 0 : ℚ) / total) *
              ((ws.getD j []).getD layerIdx []).getD i 0 := by
  intro ws
  induction ws with
  | nil =>
    intro idx acc hsh hb
    exact ⟨acc, rfl, rfl, fun i => by simp⟩
  | cons w ws ih =>
    intro idx acc hsh hb
    obtain ⟨hlt, hlen⟩ := hsh w (List.mem_cons_self w ws)
    have hidx : idx < cs.length := by
      simp only [List.length_cons] at hb
      omega
    have hcs : cs[idx]? = some (cs.getD idx 0) := by
      rw [List.getElem?_eq_getElem hidx, List.getD_eq_getElem cs 0 hidx]
    have hw : w[layerIdx]? = some (w.getD layerIdx []) := by
      rw [List.getElem?_eq_getElem hlt, List.getD_eq_getElem w [] hlt]
    have hslen : (scalarMul ((cs.getD idx 0 : ℚ) / total) (w.getD layerIdx [])).length
        = acc.length := by
      simp only [scalarMul, List.length_map]
      exact hlen
    have hacc2len :
        (List.zipWith (fun a b => a + b) acc
          (scalarMul ((cs.getD idx 0 : ℚ) / total) (w.getD layerIdx []))).length
        = acc.length := by
      rw [List.length_zipWith, hslen]
      omega
    have hbro : broadcastAdd acc
        (scalarMul ((cs.getD idx 0 : ℚ) / total) (w.getD layerIdx [])) =
        some (List.zipWith (fun a b => a + b) acc
          (scalarMul ((cs.getD idx 0 : ℚ) / total) (w.getD layerIdx []))) := by
      unfold broadcastAdd
      rw [if_pos hslen]
    have hstep : avgClientsLoop total cs layerIdx (w :: ws) idx acc =
        avgClientsLoop total cs layerIdx ws (idx + 1)
          (List.zipWith (fun a b => a + b) acc
            (scalarMul ((cs.getD idx 0 : ℚ) / total) (w.getD layerIdx []))) := by
      simp only [avgClientsLoop, hcs, hw, if_neg htotal, hbro]
    obtain ⟨r, hr, hrlen, hrval⟩ := ih (idx + 1)
      (List.zipWith (fun a b => a + b) acc
        (scalarMul ((cs.getD idx 0 : ℚ) / total) (w.getD layerIdx [])))
      (fun w2 hw2 => by
        obtain ⟨h1, h2⟩ := hsh w2 (List.mem_cons_of_mem w hw2)
        exact ⟨h1, by rw [h2, hacc2len]⟩)
      (by simp only [List.length_cons] at hb; omega)
    refine ⟨r, by rw [hstep]; exact hr, by rw [hrlen, hacc2len], fun i => ?_⟩
    rw [hrval i, getD_zipWith_add _ _ hslen i, getD_scalarMul]
    simp only [List.length_cons]
    rw [Finset.sum_range_succ']
    simp only [List.getD_cons_succ, List.getD_cons_zero, Nat.add_zero]
    simp only [show ∀ j : ℕ, idx + 1 + j = idx + (j + 1) from fun j => by omega]
    ring

/-- Two clients whose layer shape lists agree have the same layer count and
layerwise equal shapes. -/
theorem map_length_eq_imp (w w0 : List (List ℚ))
    (h : w.map List.length = w0.map List.length) (li : ℕ) (hli : li < w0.length) :
    li < w.length ∧ (w.getD li []).length = (w0.getD li []).length := by
  have hlen : w.length = w0.length := by
    have h2 := congrArg List.length h
    simpa using h2
  have hlw : li < w.length := by omega
  refine ⟨hlw, ?_⟩
  have h3 : (w.map List.length).getD li 0 = (w0.map List.length).getD li 0 := by
    rw [h]
  rw [List.getD_eq_getElem _ _ (by simpa using hlw),
      List.getD_eq_getElem _ _ (by simpa using hli),
      List.getElem_map, List.getElem_map] at h3
  rw [List.getD_eq_getElem _ _ hlw, List.getD_eq_getElem _ _ hli]
  exact h3

/-- The outer loop of _federated_averaging: on any list of in-range layer
indices it returns, layer by layer, the size-weighted average of the
clients' tensors for that layer. -/
theorem layersLoop_spec (total : ℚ) (htotal : total ≠ 0) (cs : List ℕ)
    (cw : List (List (List ℚ))) (w0 : List (List ℚ))
    (hsh : ∀ w ∈ cw, w.map List.length = w0.map List.length)
    (hcs : cw.length ≤ cs.length) :
    ∀ idxs : List ℕ, (∀ li ∈ idxs, li < w0.length) →
    ∃ out, layersLoop total cs cw w0 idxs = .ok out ∧
      out.length = idxs.length ∧
      ∀ j, j < idxs.length → ∀ i,
        (out.getD j []).getD i 0 =
          ∑ c ∈ Finset.range cw.length,
            ((cs.getD c 0 : ℚ) / total) *
              ((cw.getD c []).getD (idxs.getD j 0) []).getD i 0 := by
  intro idxs
  induction idxs with
  | nil =>
    intro _
    exact ⟨[], rfl, rfl, fun j hj => absurd hj (by simp)⟩
  | cons li rest ih =>
    intro hmem
    have hli : li < w0.length := hmem li (List.mem_cons_self li rest)
    obtain ⟨r, hr, hrlen, hrval⟩ := avgClientsLoop_spec total htotal cs li cw 0
      (List.replicate (w0.getD li []).length 0)
      (fun w hw => by
        obtain ⟨h1, h2⟩ := map_length_eq_imp w w0 (hsh w hw) li hli
        exact ⟨h1, by rw [h2, List.length_replicate]⟩)
      (by omega)
    obtain ⟨out, hout, houtlen, houtval⟩ :=
      ih (fun li2 h2 => hmem li2 (List.mem_cons_of_mem li h2))
    refine ⟨r :: out, ?_, by simp [houtlen], ?_⟩
    · unfold layersLoop
      rw [hr, hout]
    · intro j hj i
      cases j with
      | zero =>
        simp only [List.getD_cons_zero]
        rw [hrval i, getD_replicate_zero]
        simp only [zero_add, Nat.zero_add]
      | succ jj =>
        simp only [List.getD_cons_succ]
        exact houtval jj (by simpa using hj) i

/-- The aggregation engine on a non-empty client list with agreeing shapes:
each output position is the data-size-weighted sum of the clients'
corresponding entries. -/
theorem federated_averaging_spec (w0 : List (List ℚ)) (rest : List (List (List ℚ)))
    (cs : List ℕ)
    (hsh : ∀ w ∈ w0 :: rest, w.map List.length = w0.map List.length)
    (hlen : cs.length = (w0 :: rest).length)
    (htotal : (cs.sum : ℚ) ≠ 0) :
    ∃ out, federated_averaging (w0 :: rest) cs = .ok out ∧
      out.length = w0.length ∧
      ∀ li, li < w0.length → ∀ i,
        (out.getD li []).getD i 0 =
          ∑ c ∈ Finset.range (w0 :: rest).length,
            ((cs.getD c 0 : ℚ) / (cs.sum : ℚ)) *
              (((w0 :: rest).getD c []).getD li []).getD i 0 := by
  obtain ⟨out, hout, hlen2, hval⟩ := layersLoop_spec (cs.sum : ℚ) htotal cs
    (w0 :: rest) w0 hsh (by omega) (List.range w0.length)
    (fun li h => List.mem_range.mp h)
  refine ⟨out, hout, by simpa using hlen2, fun li hli i => ?_⟩
  have hv := hval li (by simpa using hli) i
  have hr : (List.range w0.length).getD li 0 = li := by
    rw [List.getD_eq_getElem _ _ (by simpa using hli), List.getElem_range]
  rw [hr] at hv
  exact hv

/-- C1: for every non-empty list of model updates whose tensors share
identical count and shapes (and positive sample counts, as the data model
requires), aggregation succeeds and returns at each tensor position the sum
over clients of weight_j times the client's entry there, with weight_j =
sample_count_j divided by the total sample count. -/
theorem federated_averaging_weighted_sum (cw : List (List (List ℚ))) (cs : List ℕ)
    (hne : cw ≠ [])
    (hlen : cs.length = cw.length)
    (hsh : ∀ w ∈ cw, w.map List.length = (cw.headD []).map List.length)
    (hpos : ∀ s ∈ cs, 0 < s) :
    ∃ out, federated_averaging cw cs = .ok out ∧
      out.length = (cw.headD []).length ∧
      ∀ li, li < (cw.headD []).length → ∀ i,
        (out.getD li []).getD i 0 =
          ∑ j ∈ Finset.range cw.length,
            ((cs.getD j 0 : ℚ) / (cs.sum : ℚ)) *
              ((cw.getD j []).getD li []).getD i 0 := by
  cases cw with
  | nil => exact absurd rfl hne
  | cons w0 rest =>
    have htotal : (cs.sum : ℚ) ≠ 0 := by
      have h1 : 0 < cs.sum := by
        cases cs with
        | nil => simp at hlen
        | cons s ss =>
          have hs := hpos s (List.mem_cons_self s ss)
          simp only [List.sum_cons]
          omega
      exact_mod_cast h1.ne'
    simpa using federated_averaging_spec w0 rest cs (by simpa using hsh) hlen htotal

/-- C1 witness: client A with sample count 300 and tensor value 1.0 and
client B with sample count 700 and value 0.0 aggregate to 3/10, and the
general weighted-sum theorem applies to this input. -/
theorem federated_averaging_weighted_sum_witness :
    (federated_averaging [[[1]], [[0]]] [300, 700] = .ok [[3/10]]) ∧
    (∃ out, federated_averaging [[[1]], [[0]]] [300, 700] = .ok out ∧
      out.length = ([[(1 : ℚ)]] : List (List ℚ)).length ∧
      ∀ li, li < ([[(1 : ℚ)]] : List (List ℚ)).length → ∀ i,
        (out.getD li []).getD i 0 =
          ∑ j ∈ Finset.range 2,
            ((([300, 700] : List ℕ).getD j 0 : ℚ) / (([300, 700] : List ℕ).sum : ℚ)) *
              ((([[[1]], [[0]]] : List (List (List ℚ))).getD j []).getD li []).getD i 0) := by
  constructor
  · simp [federated_averaging, layersLoop, avgClientsLoop, broadcastAdd, scalarMul,
      List.range_succ, List.replicate_succ]
    norm_num
  · simpa using federated_averaging_weighted_sum [[[1]], [[0]]] [300, 700]
      (by decide) (by decide) (by decide) (by decide)

/-- C2: a round in which no collected update comes from a registered client
returns the failed result with reason no_updates and leaves the model state,
in particular round counter and performance history, exactly as it was; no
aggregation output is produced. -/
theorem training_round_no_updates (st : ModelState) (updates : List (String × Update))
    (h : ∀ cu ∈ updates, cu.1 ∉ st.clients) :
    federated_training_round st updates = .ok (st, .failed "no_updates") := by
  have hc : collectedUpdates st updates = [] := by
    unfold collectedUpdates
    rw [List.filter_eq_nil_iff]
    intro cu hcu
    simpa using h cu hcu
  unfold federated_training_round
  rw [hc]
  rfl

/-- C2 witness: an unregistered client's update is collected by nobody, the
state with round 5 and one history entry is returned unchanged. -/
theorem training_round_no_updates_witness :
    federated_training_round ⟨["A"], 5, [⟨1, .fin 1, 1, 10⟩], [[2]]⟩
        [("B", ⟨[[1]], 10, none⟩)] =
      .ok (⟨["A"], 5, [⟨1, .fin 1, 1, 10⟩], [[2]]⟩, .failed "no_updates") :=
  training_round_no_updates _ _ (by decide)

/-- C4: the source has no shape validation at all.  Two updates whose single
tensors have shapes (3,) and (1,) are silently combined by numpy
broadcasting instead of raising a ShapeMismatchError, and two updates with
differing tensor counts raise an IndexError that, the round function having
no handler, escapes the round coordinator uncaught (the error outcome of the
model); in neither case does any ShapeMismatchError exist in the code. -/
theorem federated_averaging_no_shape_check :
    federated_averaging [[[1, 2, 3]], [[5]]] [1, 1] = .ok [[3, 7/2, 4]] ∧
    federated_averaging [[[1], [2]], [[3]]] [1, 1] = .error .indexError ∧
    federated_training_round ⟨["A", "B"], 0, [], []⟩
        [("A", ⟨[[1], [2]], 1, none⟩), ("B", ⟨[[3]], 1, none⟩)] =
      .error .indexError := by
  refine ⟨?_, ?_, ?_⟩
  · simp [federated_averaging, layersLoop, avgClientsLoop, broadcastAdd, scalarMul,
      List.range_succ, List.replicate_succ]
    norm_num
  · simp [federated_averaging, layersLoop, avgClientsLoop, broadcastAdd, scalarMul,
      List.range_succ, List.replicate_succ]
  · simp [federated_training_round, collectedUpdates, federated_averaging,
      layersLoop, avgClientsLoop, broadcastAdd, scalarMul, List.range_succ,
      List.replicate_succ, List.filter_cons]

theorem list_sum_map_range {α : Type} [Inhabited α] (f : α → ℚ) (l : List α) :
    (l.map f).sum = ∑ j ∈ Finset.range l.length, f (l.getD j default) := by
  induction l with
  | nil => simp
  | cons a l ih =>
    simp only [List.map_cons, List.sum_cons, List.length_cons, Finset.sum_range_succ',
      List.getD_cons_succ, List.getD_cons_zero]
    rw [ih]
    ring

theorem list_sum_map_range_nat {α : Type} [Inhabited α] (f : α → ℕ) (l : List α) :
    (l.map f).sum = ∑ j ∈ Finset.range l.length, f (l.getD j default) := by
  induction l with
  | nil => simp
  | cons a l ih =>
    simp only [List.map_cons, List.sum_cons, List.length_cons, Finset.sum_range_succ',
      List.getD_cons_succ, List.getD_cons_zero]
    rw [ih]
    omega

theorem getD_map_lt {α β : Type} [Inhabited α] (f : α → β) (l : List α) (j : ℕ)
    (hj : j < l.length) (d : β) : (l.map f).getD j d = f (l.getD j default) := by
  rw [List.getD_eq_getElem _ _ (by simpa using hj), List.getD_eq_getElem _ _ hj,
    List.getElem_map]

/-- When every update carries a performance dict, the evaluation filter keeps
every entry. -/
theorem evaluate_perfs_eq (updates : List (String × Update))
    (hall : ∀ cu ∈ updates, cu.2.performance.isSome) :
    updates.filterMap (fun cu => cu.2.performance.map (fun p => (p, cu.2.data_size))) =
      updates.map (fun cu => (cu.2.performance.getD default, cu.2.data_size)) := by
  induction updates with
  | nil => rfl
  | cons cu rest ih =>
    have hcu := hall cu (List.mem_cons_self cu rest)
    cases hp : cu.2.performance with
    | none => rw [hp] at hcu; simp at hcu
    | some p =>
      simp only [List.filterMap_cons, List.map_cons, hp, Option.map_some', Option.getD_some]
      rw [ih (fun c hc => hall c (List.mem_cons_of_mem cu hc))]

/-- _evaluate_global_model on updates that all carry metrics and have a
positive total sample count: the snapshot holds the sample-weighted averages
of accuracy and loss, the participant count and the total samples. -/
theorem evaluate_global_model_spec (updates : List (String × Update))
    (hall : ∀ cu ∈ updates, cu.2.performance.isSome)
    (hpos : 0 < (updates.map (fun cu => cu.2.data_size)).sum) :
    (evaluate_global_model updates).accuracy =
      ∑ j ∈ Finset.range updates.length,
        (((updates.getD j default).2.data_size : ℚ) /
            (((updates.map (fun cu => cu.2.data_size)).sum : ℕ) : ℚ)) *
          (((updates.getD j default).2.performance.getD default).accuracy.getD 0) ∧
    (evaluate_global_model updates).loss =
      .fin (∑ j ∈ Finset.range updates.length,
        (((updates.getD j default).2.data_size : ℚ) /
            (((updates.map (fun cu => cu.2.data_size)).sum : ℕ) : ℚ)) *
          (((updates.getD j default).2.performance.getD default).loss.getD 0)) ∧
    (evaluate_global_model updates).participating_clients = updates.length ∧
    (evaluate_global_model updates).total_samples =
      (updates.map (fun cu => cu.2.data_size)).sum := by
  have heval : evaluate_global_model updates =
      { accuracy :=
          (((updates.map (fun cu =>
            ((cu.2.performance.getD default).accuracy.getD 0) * (cu.2.data_size : ℚ)))).sum) /
            (((updates.map (fun cu => cu.2.data_size)).sum : ℕ) : ℚ),
        loss := .fin
          ((((updates.map (fun cu =>
            ((cu.2.performance.getD default).loss.getD 0) * (cu.2.data_size : ℚ)))).sum) /
            (((updates.map (fun cu => cu.2.data_size)).sum : ℕ) : ℚ)),
        participating_clients := updates.length,
        total_samples := (updates.map (fun cu => cu.2.data_size)).sum } := by
    unfold evaluate_global_model
    rw [evaluate_perfs_eq updates hall]
    simp only [List.map_map, Function.comp_def]
    rw [if_pos (by simpa using hpos)]
  rw [heval]
  dsimp only
  refine ⟨?_, ?_, rfl, rfl⟩
  · rw [list_sum_map_range, Finset.sum_div]
    exact Finset.sum_congr rfl (fun j hj => by ring)
  · rw [list_sum_map_range, Finset.sum_div]
    exact congrArg XVal.fin (Finset.sum_congr rfl (fun j hj => by ring))

/-- C3, counterexample.  With registered client A and an unregistered entry
B both carrying metrics, the round succeeds aggregating only A's parameters,
but the appended snapshot averages A's and B's metrics to one half; the
sample-weighted average over the contributing clients, with the parameter
weights, is 1.  So the snapshot is not the weighted average of the
contributing clients' local metrics that the claim describes. -/
theorem training_round_metrics_count_unregistered :
    federated_training_round ⟨["A"], 0, [], []⟩
        [("A", ⟨[[1]], 100, some ⟨some 1, some 0⟩⟩),
         ("B", ⟨[[1]], 100, some ⟨some 0, some 0⟩⟩)] =
      .ok (⟨["A"], 1, [⟨1/2, .fin 0, 2, 200⟩], [[1]]⟩,
           .success 1 ⟨1/2, .fin 0, 2, 200⟩ [[1]]) ∧
    contribWeightedAcc ⟨["A"], 0, [], []⟩
        [("A", ⟨[[1]], 100, some ⟨some 1, some 0⟩⟩),
         ("B", ⟨[[1]], 100, some ⟨some 0, some 0⟩⟩)] = 1 ∧
    (1 : ℚ)/2 ≠ 1 := by
  refine ⟨?_, ?_, by norm_num⟩
  · simp [federated_training_round, collectedUpdates, evaluate_global_model,
      federated_averaging, layersLoop, avgClientsLoop, broadcastAdd, scalarMul,
      List.range_succ, List.replicate_succ, List.filter_cons]
    norm_num
  · simp [contribWeightedAcc, collectedUpdates, List.filter_cons]

/-- C3, amended.  When at least one update is collected and every collected
update comes from a registered client, carries local metrics, has positive
sample count, and all tensor shapes agree, the round succeeds: the global
parameters are replaced by the weighted aggregate, the round number
increments by exactly one, the snapshot appended to the history (history
grows by one) holds the sample-weighted average of the contributing
clients' metrics with the same weights as the parameter aggregation, and
the result reports success with the new round number. -/
theorem training_round_success (st : ModelState) (updates : List (String × Update))
    (hne : updates ≠ [])
    (hreg : ∀ cu ∈ updates, cu.1 ∈ st.clients)
    (hperf : ∀ cu ∈ updates, cu.2.performance.isSome)
    (hsh : ∀ cu ∈ updates, cu.2.model_weights.map List.length =
      ((updates.headD default).2.model_weights).map List.length)
    (hpos : ∀ cu ∈ updates, 0 < cu.2.data_size) :
    ∃ gw,
      federated_training_round st updates =
        .ok ({ st with
                global_weights := gw,
                performance_history :=
                  st.performance_history ++ [evaluate_global_model updates],
                current_round := st.current_round + 1 },
             .success (st.current_round + 1) (evaluate_global_model updates) gw) ∧
      gw.length = ((updates.headD default).2.model_weights).length ∧
      (∀ li, li < ((updates.headD default).2.model_weights).length → ∀ i,
        (gw.getD li []).getD i 0 =
          ∑ j ∈ Finset.range updates.length,
            (((updates.getD j default).2.data_size : ℚ) /
                (((updates.map (fun cu => cu.2.data_size)).sum : ℕ) : ℚ)) *
              (((updates.getD j default).2.model_weights).getD li []).getD i 0) ∧
      (evaluate_global_model updates).accuracy =
        ∑ j ∈ Finset.range updates.length,
          (((updates.getD j default).2.data_size : ℚ) /
              (((updates.map (fun cu => cu.2.data_size)).sum : ℕ) : ℚ)) *
            (((updates.getD j default).2.performance.getD default).accuracy.getD 0) ∧
      (evaluate_global_model updates).loss =
        .fin (∑ j ∈ Finset.range updates.length,
          (((updates.getD j default).2.data_size : ℚ) /
              (((updates.map (fun cu => cu.2.data_size)).sum : ℕ) : ℚ)) *
            (((updates.getD j default).2.performance.getD default).loss.getD 0)) := by
  obtain ⟨eacc, eloss, epart, esamp⟩ := evaluate_global_model_spec updates hperf (by
    cases updates with
    | nil => exact absurd rfl hne
    | cons u us =>
      have hu := hpos u (List.mem_cons_self u us)
      simp only [List.map_cons, List.sum_cons]
      omega)
  cases updates with
  | nil => exact absurd rfl hne
  | cons u us =>
    have hcoll : collectedUpdates st (u :: us) = u :: us := by
      unfold collectedUpdates
      rw [List.filter_eq_self]
      intro cu hcu
      simpa using hreg cu hcu
    have hcw : (u :: us).map (fun cu => cu.2.model_weights) =
        u.2.model_weights :: us.map (fun cu => cu.2.model_weights) := rfl
    have hshapes : ∀ w ∈ u.2.model_weights :: us.map (fun cu => cu.2.model_weights),
        w.map List.length = (u.2.model_weights).map List.length := by
      intro w hw
      rw [← hcw] at hw
      obtain ⟨cu, hcu, rfl⟩ := List.mem_map.mp hw
      simpa using hsh cu hcu
    have htotal : ((((u :: us).map (fun cu => cu.2.data_size)).sum : ℕ) : ℚ) ≠ 0 := by
      have hu := hpos u (List.mem_cons_self u us)
      have hp2 : 0 < ((u :: us).map (fun cu => cu.2.data_size)).sum := by
        simp only [List.map_cons, List.sum_cons]
        omega
      exact_mod_cast hp2.ne'
    obtain ⟨gw, hgw, hgwlen, hgwval⟩ := federated_averaging_spec
      (u.2.model_weights) (us.map (fun cu => cu.2.model_weights))
      ((u :: us).map (fun cu => cu.2.data_size))
      hshapes (by simp) htotal
    refine ⟨gw, ?_, by simpa using hgwlen, ?_, by simpa using eacc, by simpa using eloss⟩
    · unfold federated_training_round
      rw [hcoll]
      have hnotempty : (((u :: us).map (fun cu => cu.2.model_weights)).isEmpty) = false := by
        simp
      rw [hnotempty]
      simp only [Bool.false_eq_true, if_false]
      rw [hcw, hgw]
    · intro li hli i
      have hli2 : li < u.2.model_weights.length := by simpa using hli
      have h := hgwval li hli2 i
      rw [← hcw] at h
      simp only [List.length_map] at h
      rw [h]
      apply Finset.sum_congr rfl
      intro j hj
      have hjlt : j < (u :: us).length := Finset.mem_range.mp hj
      rw [getD_map_lt (fun cu => cu.2.data_size) (u :: us) j hjlt 0,
          getD_map_lt (fun cu => cu.2.model_weights) (u :: us) j hjlt []]

/-- C3 witness: the amended theorem applied to two registered clients with
metrics; the round result, increments and the weighted snapshot exist for
this concrete input. -/
theorem training_round_success_witness :
    ∃ gw,
      federated_training_round ⟨["A", "B"], 4, [], [[9]]⟩
          [("A", ⟨[[1]], 300, some ⟨some 1, some 0⟩⟩),
           ("B", ⟨[[0]], 700, some ⟨some 0, some 1⟩⟩)] =
        .ok ({ clients := ["A", "B"], current_round := 5,
               performance_history :=
                 [evaluate_global_model
                   [("A", ⟨[[1]], 300, some ⟨some 1, some 0⟩⟩),
                    ("B", ⟨[[0]], 700, some ⟨some 0, some 1⟩⟩)]],
               global_weights := gw },
             .success 5
               (evaluate_global_model
                 [("A", ⟨[[1]], 300, some ⟨some 1, some 0⟩⟩),
                  ("B", ⟨[[0]], 700, some ⟨some 0, some 1⟩⟩)]) gw) ∧
      gw.length = 1 ∧
      (evaluate_global_model
          [("A", ⟨[[1]], 300, some ⟨some 1, some 0⟩⟩),
           ("B", ⟨[[0]], 700, some ⟨some 0, some 1⟩⟩)]).accuracy =
        ∑ j ∈ Finset.range 2,
          (((([("A", (⟨[[1]], 300, some ⟨some 1, some 0⟩⟩ : Update)),
              ("B", ⟨[[0]], 700, some ⟨some 0, some 1⟩⟩)].getD j default).2.data_size : ℕ) : ℚ) / 1000) *
            ((([("A", (⟨[[1]], 300, some ⟨some 1, some 0⟩⟩ : Update)),
              ("B", ⟨[[0]], 700, some ⟨some 0, some 1⟩⟩)].getD j default).2.performance.getD
                default).accuracy.getD 0) := by
  obtain ⟨gw, h1, h2, h3, h4, h5⟩ := training_round_success
    ⟨["A", "B"], 4, [], [[9]]⟩
    [("A", ⟨[[1]], 300, some ⟨some 1, some 0⟩⟩),
     ("B", ⟨[[0]], 700, some ⟨some 0, some 1⟩⟩)]
    (by decide) (by decide) (by decide) (by decide) (by decide)
  refine ⟨gw, ?_, by simpa using h2, ?_⟩
  · simpa using h1
  · have := h4
    norm_num at this ⊢
    convert this using 2

/-! PKCS7 padding and tamper-detection lemmas for the image encryption. -/

theorem getLast?_replicate_of_ne_zero (n x : ℕ) (h : n ≠ 0) :
    (List.replicate n x).getLast? = some x := by
  cases n with
  | zero => exact absurd rfl h
  | succ m => exact List.getLast?_replicate ..

theorem pad_len_ne_zero (d : List ℕ) : 16 - d.length % 16 ≠ 0 := by
  have h16 : d.length % 16 < 16 := Nat.mod_lt _ (by norm_num)
  omega

theorem pad_data_getLast? (d : List ℕ) :
    (pad_data d).getLast? = some (16 - d.length % 16) := by
  unfold pad_data
  rw [List.getLast?_append, getLast?_replicate_of_ne_zero _ _ (pad_len_ne_zero d)]
  rfl

/-- Unpadding inverts padding: the final byte records the padding length,
which is dropped exactly. -/
theorem unpad_pad (d : List ℕ) : unpad_data (pad_data d) = .ok d := by
  unfold unpad_data
  rw [pad_data_getLast?]
  simp only [if_neg (pad_len_ne_zero d)]
  have hlen : (pad_data d).length - (16 - d.length % 16) = d.length := by
    unfold pad_data
    rw [List.length_append, List.length_replicate]
    omega
  rw [hlen]
  unfold pad_data
  rw [List.take_left]

theorem getD_set_self (l : List ℕ) : ∀ i b, i < l.length → (l.set i b).getD i 0 = b := by
  induction l with
  | nil =>
    intro i b h
    simp at h
  | cons a t ih =>
    intro i b h
    cases i with
    | zero => rfl
    | succ j => simpa using ih j b (by simpa using h)

theorem list_set_ne (l : List ℕ) (i b : ℕ) (h : i < l.length) (hb : b ≠ l.getD i 0) :
    l.set i b ≠ l := by
  intro heq
  have h1 := getD_set_self l i b h
  rw [heq] at h1
  exact hb h1.symm

/-- C5: decrypting the package produced by encrypt with the same subject id
(hence the same derived key), unmodified ciphertext and tag, under the
library's block-cipher contract that decryption inverts encryption for any
key and iv, returns exactly the original byte payload. -/
theorem decrypt_encrypt_roundtrip (kdf : String → List ℕ)
    (aesEnc aesDec : List ℕ → List ℕ → List ℕ → List ℕ)
    (hmac : List ℕ → List ℕ → List ℕ)
    (hinv : ∀ k iv x, aesDec k iv (aesEnc k iv x) = x)
    (p : List ℕ) (s : String) (iv : List ℕ) :
    decrypt_dicom_image kdf aesDec hmac
      (encrypt_dicom_image kdf aesEnc hmac p s iv) s = .ok p := by
  simp only [decrypt_dicom_image, encrypt_dicom_image, if_true]
  rw [hinv]
  exact unpad_pad p

/-- C5 witness: the round trip theorem applied at concrete parameters (with
the identity instantiation of the library cipher, key derivation and
digest, which satisfies the inversion contract) and a concrete payload. -/
theorem decrypt_encrypt_roundtrip_witness :
    decrypt_dicom_image (fun _ => []) (fun _ _ x => x) (fun _ m => m)
      (encrypt_dicom_image (fun _ => []) (fun _ _ x => x) (fun _ m => m)
        [7, 1] "img" [0]) "img" = .ok [7, 1] :=
  decrypt_encrypt_roundtrip (fun _ => []) (fun _ _ x => x) (fun _ _ x => x)
    (fun _ m => m) (fun _ _ _ => rfl) [7, 1] "img" [0]

/-- C6: on a package produced by encrypt, mutating any byte of the
ciphertext (for a digest that is collision-free on the derived key, the
idealization of HMAC-SHA256) or any byte of the integrity tag makes decrypt
fail with the integrity error; decryption never proceeds past the tag
comparison on a tampered package, so no unauthenticated plaintext is
returned. -/
theorem decrypt_tamper_rejected (kdf : String → List ℕ)
    (aesEnc aesDec : List ℕ → List ℕ → List ℕ → List ℕ)
    (hmac : List ℕ → List ℕ → List ℕ)
    (p : List ℕ) (s : String) (iv : List ℕ)
    (hinj : ∀ c c2, hmac (kdf s) c = hmac (kdf s) c2 → c = c2) :
    (∀ i b,
      i < (encrypt_dicom_image kdf aesEnc hmac p s iv).encrypted_data.length →
      b ≠ (encrypt_dicom_image kdf aesEnc hmac p s iv).encrypted_data.getD i 0 →
      decrypt_dicom_image kdf aesDec hmac
        { encrypt_dicom_image kdf aesEnc hmac p s iv with
          encrypted_data :=
            (encrypt_dicom_image kdf aesEnc hmac p s iv).encrypted_data.set i b } s
        = .error (.valueError "Image integrity verification failed")) ∧
    (∀ i b,
      i < (encrypt_dicom_image kdf aesEnc hmac p s iv).integrity_hash.length →
      b ≠ (encrypt_dicom_image kdf aesEnc hmac p s iv).integrity_hash.getD i 0 →
      decrypt_dicom_image kdf aesDec hmac
        { encrypt_dicom_image kdf aesEnc hmac p s iv with
          integrity_hash :=
            (encrypt_dicom_image kdf aesEnc hmac p s iv).integrity_hash.set i b } s
        = .error (.valueError "Image integrity verification failed")) := by
  constructor
  · intro i b hi hb
    have hne : ((aesEnc (kdf s) iv (pad_data p)).set i b) ≠ aesEnc (kdf s) iv (pad_data p) :=
      list_set_ne _ i b (by simpa [encrypt_dicom_image] using hi)
        (by simpa [encrypt_dicom_image] using hb)
    simp only [decrypt_dicom_image, encrypt_dicom_image]
    rw [if_neg (fun hcontra => hne ((hinj _ _ hcontra).symm))]
  · intro i b hi hb
    have hne : ((hmac (kdf s) (aesEnc (kdf s) iv (pad_data p))).set i b) ≠
        hmac (kdf s) (aesEnc (kdf s) iv (pad_data p)) :=
      list_set_ne _ i b (by simpa [encrypt_dicom_image] using hi)
        (by simpa [encrypt_dicom_image] using hb)
    simp only [decrypt_dicom_image, encrypt_dicom_image]
    rw [if_neg hne]

/-- C6 witness: with the identity instantiation of the library primitives
(whose digest is injective) and payload 1,2,3, flipping the first ciphertext
byte or the first tag byte to 9 is rejected with the integrity error. -/
theorem decrypt_tamper_rejected_witness :
    (decrypt_dicom_image (fun _ => []) (fun _ _ x => x) (fun _ m => m)
      { encrypt_dicom_image (fun _ => []) (fun _ _ x => x) (fun _ m => m)
          [1, 2, 3] "a" [] with
        encrypted_data :=
          (encrypt_dicom_image (fun _ => []) (fun _ _ x => x) (fun _ m => m)
            [1, 2, 3] "a" []).encrypted_data.set 0 9 } "a"
      = .error (.valueError "Image integrity verification failed")) ∧
    (decrypt_dicom_image (fun _ => []) (fun _ _ x => x) (fun _ m => m)
      { encrypt_dicom_image (fun _ => []) (fun _ _ x => x) (fun _ m => m)
          [1, 2, 3] "a" [] with
        integrity_hash :=
          (encrypt_dicom_image (fun _ => []) (fun _ _ x => x) (fun _ m => m)
            [1, 2, 3] "a" []).integrity_hash.set 0 9 } "a"
      = .error (.valueError "Image integrity verification failed")) := by
  have h := decrypt_tamper_rejected (fun _ => []) (fun _ _ x => x) (fun _ _ x => x)
    (fun _ m => m) [1, 2, 3] "a" [] (fun _ _ hcc => hcc)
  exact ⟨h.1 0 9 (by decide) (by decide), h.2 0 9 (by decide) (by decide)⟩

/-- C7, counterexample.  The claim states that every non-identifier,
non-quasi-identifier field is carried through; a record that already carries
an anonymous_id field refutes this, because anonymize overwrites that field
with the cached pseudonym even though it is in none of the stripped or
generalized field sets. -/
theorem anonymize_rewrites_preexisting_anonymous_id :
    (anonymize_patient_data [] "h" [("anonymous_id", Val.vStr "x")]).2 =
      .ok [("anonymous_id", Val.vStr "h")] ∧
    ("anonymous_id" ∈ sensitive_fields) = False ∧
    Val.vStr "h" ≠ Val.vStr "x" := by
  refine ⟨by decide, by simp [sensitive_fields], by decide⟩

/-- C7, amended.  On every successful anonymize call no direct-identifier
field name appears in the output, and every input field other than the
direct identifiers, the generalized quasi-identifiers age and zip_code, and
the derived output fields (anonymous_id always; age_group and region when
age respectively zip_code is present) is carried through unchanged. -/
theorem anonymize_non_leakage_carry (amap : AMap) (fresh : String) (ehr out : Rec)
    (h : (anonymize_patient_data amap fresh ehr).2 = .ok out) :
    (∀ k ∈ sensitive_fields, dlookup k out = none) ∧
    (∀ k, k ∉ sensitive_fields → k ≠ "anonymous_id" → k ≠ "age" → k ≠ "zip_code" →
      (k = "age_group" → dlookup "age" ehr = none) →
      (k = "region" → dlookup "zip_code" ehr = none) →
      dlookup k out = dlookup k ehr) := by
  obtain ⟨mid, hage, hzip⟩ := anonymize_ok_split amap fresh ehr out h
  constructor
  · intro k hk
    have hne : k ≠ "age" ∧ k ≠ "age_group" ∧ k ≠ "zip_code" ∧ k ≠ "region" := by
      fin_cases hk <;> exact ⟨by decide, by decide, by decide, by decide⟩
    rw [zip_step_preserves k hne.2.2.1 hne.2.2.2 _ _ hzip,
        age_step_preserves k hne.1 hne.2.1 _ _ hage,
        dlookup_strippedRec_sensitive k hk]
  · intro k hks hid hka hkz hag hreg
    by_cases hkag : k = "age_group"
    · subst hkag
      have hnone : dlookup "age" (strippedRec amap fresh ehr) = none := by
        rw [dlookup_strippedRec_other "age" (by decide) (by decide)]
        exact hag rfl
      rw [age_step_id _ hnone] at hage
      cases hage
      rw [zip_step_preserves _ (by decide) (by decide) _ _ hzip,
          dlookup_strippedRec_other _ hks hid]
    · by_cases hkreg : k = "region"
      · subst hkreg
        have hnone : dlookup "zip_code" mid = none := by
          rw [age_step_preserves "zip_code" (by decide) (by decide) _ _ hage,
              dlookup_strippedRec_other "zip_code" (by decide) (by decide)]
          exact hreg rfl
        rw [zip_step_id _ hnone] at hzip
        cases hzip
        rw [age_step_preserves _ hka hkag _ _ hage,
            dlookup_strippedRec_other _ hks hid]
      · rw [zip_step_preserves _ hkz hkreg _ _ hzip,
            age_step_preserves _ hka hkag _ _ hage,
            dlookup_strippedRec_other _ hks hid]

/-- C7 witness: the amended theorem applied to a concrete record with a
direct identifier, an age, a zip code and a plain clinical field. -/
theorem anonymize_non_leakage_carry_witness :
    dlookup "patient_id"
        [("diagnosis", Val.vStr "flu"), ("anonymous_id", Val.vStr "h16"),
         ("age_group", Val.vStr "30-49"), ("region", Val.vStr "902XX")] = none ∧
    dlookup "diagnosis"
        [("diagnosis", Val.vStr "flu"), ("anonymous_id", Val.vStr "h16"),
         ("age_group", Val.vStr "30-49"), ("region", Val.vStr "902XX")] =
      dlookup "diagnosis"
        [("patient_id", Val.vStr "p1"), ("name", Val.vStr "Jo"), ("age", Val.vInt 45),
         ("zip_code", Val.vStr "90210"), ("diagnosis", Val.vStr "flu")] := by
  have h := anonymize_non_leakage_carry [] "h16"
    [("patient_id", Val.vStr "p1"), ("name", Val.vStr "Jo"), ("age", Val.vInt 45),
     ("zip_code", Val.vStr "90210"), ("diagnosis", Val.vStr "flu")]
    [("diagnosis", Val.vStr "flu"), ("anonymous_id", Val.vStr "h16"),
     ("age_group", Val.vStr "30-49"), ("region", Val.vStr "902XX")]
    (by decide)
  exact ⟨h.1 "patient_id" (by decide),
         h.2 "diagnosis" (by decide) (by decide) (by decide) (by decide)
           (by decide) (by decide)⟩

/-- C8: two anonymize calls that present the same source identity return the
same anonymous_id, whatever other calls run in between on the same
processor instance, because the pseudonym cached for an identity is never
overwritten or dropped. -/
theorem anonymize_pseudonym_deterministic (amap : AMap) (calls : List (String × Rec))
    (f1 f2 : String) (r1 r2 out1 out2 : Rec)
    (hsame : sourceId r1 = sourceId r2)
    (h1 : (anonymize_patient_data amap f1 r1).2 = .ok out1)
    (h2 : (anonymize_patient_data
            (anonymizeSeq (anonymize_patient_data amap f1 r1).1 calls) f2 r2).2 =
          .ok out2) :
    dlookup "anonymous_id" out1 = dlookup "anonymous_id" out2 := by
  have e1 := anonymize_out_anon_id amap f1 r1 out1 h1
  have e2 := anonymize_out_anon_id
    (anonymizeSeq (anonymize_patient_data amap f1 r1).1 calls) f2 r2 out2 h2
  have hv1 : lookupV (sourceId r1) (updatedAMap amap f1 r1) =
      some ((lookupV (sourceId r1) amap).getD f1) := lookupV_updatedAMap_self amap f1 r1
  have hseq : lookupV (sourceId r1)
      (anonymizeSeq (anonymize_patient_data amap f1 r1).1 calls) =
      some ((lookupV (sourceId r1) amap).getD f1) := by
    apply lookupV_anonymizeSeq_mono
    rw [anonymize_amap_eq]
    exact hv1
  have hv2 : lookupV (sourceId r2)
      (updatedAMap (anonymizeSeq (anonymize_patient_data amap f1 r1).1 calls) f2 r2) =
      some ((lookupV (sourceId r1) amap).getD f1) := by
    apply lookupV_updatedAMap_mono
    rw [← hsame]
    exact hseq
  rw [e1, e2, hv1, hv2]

/-- C8 witness: the theorem applied to two concrete calls with the same
source identity, interleaved with a call for a different identity. -/
theorem anonymize_pseudonym_deterministic_witness :
    dlookup "anonymous_id" [("anonymous_id", Val.vStr "aa")] =
      dlookup "anonymous_id" [("anonymous_id", Val.vStr "aa")] := by
  exact anonymize_pseudonym_deterministic [] [("zz", [("patient_id", Val.vStr "q")])]
    "aa" "bb" [("patient_id", Val.vStr "p")] [("patient_id", Val.vStr "p")]
    [("anonymous_id", Val.vStr "aa")] [("anonymous_id", Val.vStr "aa")]
    (by decide) (by decide) (by decide)

/-- C9, counterexample.  A record without any source identity field does not
make anonymize fail: the call succeeds and pseudonymizes the empty-string
identity, so no ValidationError is raised. -/
theorem anonymize_missing_source_identity_succeeds :
    (anonymize_patient_data [] "abcd" ([] : Rec)).2 =
      .ok [("anonymous_id", Val.vStr "abcd")] := by decide

/-- C9, amended.  A record lacking the source identity field is not rejected:
anonymize substitutes the empty-string identity, caches a pseudonym for it
when absent, and any successful output carries that pseudonym as its
anonymous_id. -/
theorem anonymize_missing_source_identity_defaults (amap : AMap) (fresh : String)
    (ehr : Rec) (hmissing : dlookup "patient_id" ehr = none) :
    (anonymize_patient_data amap fresh ehr).1 =
      (if (lookupV (Val.vStr "") amap).isSome then amap
       else amap ++ [(Val.vStr "", fresh)]) ∧
    ∀ out, (anonymize_patient_data amap fresh ehr).2 = .ok out →
      dlookup "anonymous_id" out =
        some (Val.vStr
          ((lookupV (Val.vStr "") ((anonymize_patient_data amap fresh ehr).1)).getD "")) := by
  have hsid : sourceId ehr = Val.vStr "" := by
    unfold sourceId
    rw [hmissing]
    rfl
  constructor
  · rw [anonymize_amap_eq]
    unfold updatedAMap
    rw [hsid]
  · intro out hout
    rw [anonymize_out_anon_id amap fresh ehr out hout, anonymize_amap_eq, hsid]

/-- C9 witness: the amended theorem applied to a concrete record without a
patient_id field. -/
theorem anonymize_missing_source_identity_defaults_witness :
    (anonymize_patient_data [] "abcd" [("diagnosis", Val.vStr "flu")]).1 =
      (if (lookupV (Val.vStr "") ([] : AMap)).isSome then ([] : AMap)
       else [] ++ [(Val.vStr "", "abcd")]) ∧
    ∀ out, (anonymize_patient_data [] "abcd" [("diagnosis", Val.vStr "flu")]).2 = .ok out →
      dlookup "anonymous_id" out =
        some (Val.vStr
          ((lookupV (Val.vStr "")
            ((anonymize_patient_data [] "abcd" [("diagnosis", Val.vStr "flu")]).1)).getD "")) :=
  anonymize_missing_source_identity_defaults [] "abcd" [("diagnosis", Val.vStr "flu")]
    (by decide)

/-- C10: anonymize never writes through the caller's record reference.  At
the object level the call allocates a fresh copy, performs all writes there,
and every object that existed before the call, in particular the input
record with all its original fields, is unchanged afterwards. -/
theorem anonymize_obj_input_record_unchanged (σ : PyState) (fresh : String)
    (a i : ℕ) (hi : i < σ.store.length) :
    ((anonymize_obj σ fresh a).1.store).getD i [] = σ.store.getD i [] := by
  unfold anonymize_obj
  exact List.getD_append _ _ _ _ hi

/-- C10 witness: a concrete store holding one record with identifiers; the
record is unchanged by the call. -/
theorem anonymize_obj_input_record_unchanged_witness :
    ((anonymize_obj ⟨[[("patient_id", Val.vStr "p"), ("age", Val.vInt 30)]], []⟩
        "h16" 0).1.store).getD 0 [] =
      [("patient_id", Val.vStr "p"), ("age", Val.vInt 30)] := by
  rw [anonymize_obj_input_record_unchanged
    ⟨[[("patient_id", Val.vStr "p"), ("age", Val.vInt 30)]], []⟩ "h16" 0 0 (by decide)]
  rfl

